import Mathlib

/-!
Shallow embedding of `gnovm/pkg/gnolang/gc.go`: a mark-and-sweep heap
collector (`GC`, `GCObj`, `Collect`, `markObject`, `AddObject`, `AddRoot`,
`RemoveRoot`, `getObjByPath`, `getRootByPath`) and an escape-analysis pass
(`EscapeAnalysis`, `isReference`, `getVarName`, `checkEscaped`) over the Go
syntax tree, together with theorems settling the specification claims.

Go pointers (`*GCObj`) are modelled as `Nat` ids into an explicit memory
(`Heap`, an association list), so that field mutation through shared
pointers becomes explicit state passing; `nil` is `Option.none`.  A Go
panic (nil dereference, index out of range) is modelled as `Option.none`
in the result of the function that panics.
-/

namespace Gnolang

/-- Embeds Go `GCObj`.  The `value interface{}` field is an opaque payload
never read or written by any function in the file, so it is omitted from
the embedding; `ref *GCObj` becomes `Option Nat` (an id into the heap,
`none` for `nil`); `path string` and `marked bool` are kept verbatim. -/
structure GCObj where
  marked : Bool
  ref : Option Nat
  path : String
deriving Repr, DecidableEq

/-- The Go runtime memory holding the `GCObj` values that `*GCObj`
pointers reference: an association list from object id to object. -/
abbrev Heap := List (Nat × GCObj)

/-- Dereference a pointer: find the object stored at id `i`. -/
def lookupObj : Heap → Nat → Option GCObj
  | [], _ => none
  | (k, o) :: rest, i => if k = i then some o else lookupObj rest i

/-- Assign through a pointer: replace the object stored at id `i`
(first occurrence, matching `lookupObj`). -/
def updateObj : Heap → Nat → GCObj → Heap
  | [], _, _ => []
  | (k, o) :: rest, i, o2 =>
    if k = i then (k, o2) :: rest else (k, o) :: updateObj rest i o2

/-- Embeds Go `type GC struct { objs []*GCObj; roots []*GCObj }`; the two
pointer slices become lists of ids, and the ambient memory the pointers
point into is carried alongside as `heap`. -/
structure GC where
  heap : Heap
  objs : List Nat
  roots : List Nat
deriving Repr, DecidableEq

/-- Embeds Go `NewGC`: `return &GC{}`. -/
def NewGC : GC := { heap := [], objs := [], roots := [] }

/-- Embeds Go `(gc *GC) AddObject(obj *GCObj)`:
`gc.objs = append(gc.objs, obj)`. -/
def AddObject (gc : GC) (oid : Nat) : GC :=
  { gc with objs := gc.objs ++ [oid] }

/-- Embeds Go `(gc *GC) AddRoot(root *GCObj)`:
`gc.roots = append(gc.roots, root)`. -/
def AddRoot (gc : GC) (oid : Nat) : GC :=
  { gc with roots := gc.roots ++ [oid] }

/-- Index of the first element of `roots` whose object has the given path:
the `i` at which the loop body of Go `RemoveRoot` fires (a dangling id,
impossible for a Go `*GCObj`, matches nothing). -/
def findRootIdx (h : Heap) : List Nat → String → Option Nat
  | [], _ => none
  | r :: rest, path =>
    match lookupObj h r with
    | some o =>
      if o.path = path then some 0
      else (findRootIdx h rest path).map (fun i => i + 1)
    | none => (findRootIdx h rest path).map (fun i => i + 1)

/-- Embeds Go `(gc *GC) RemoveRoot(path string)`: it scans `gc.roots` for
the first root with the given path, but then splices index `i` out of
`gc.objs` (not `gc.roots`): `gc.objs = append(gc.objs[:i], gc.objs[i+1:]...)`
and `break`s.  `List.take i ++ List.drop (i+1)` is that splice; Go would
panic when `i + 1` exceeds `len(gc.objs)`, a case no claim exercises. -/
def RemoveRoot (gc : GC) (path : String) : GC :=
  match findRootIdx gc.heap gc.roots path with
  | none => gc
  | some i => { gc with objs := gc.objs.take i ++ gc.objs.drop (i + 1) }

/-- Objects of the heap whose mark bit is still clear; the termination
measure of `markObject`, which sets one mark bit per recursive step. -/
def countUnmarked (h : Heap) : Nat :=
  List.countP (fun p => !p.2.marked) h

/-- Embeds Go `(gc *GC) markObject(obj *GCObj)`.  The Go method reads
`obj.marked` before any nil check, so a `nil` argument (an empty
`reference`) dereferences a nil pointer and panics: that is the `none`
result.  Otherwise, an already-marked object stops the recursion, and an
unmarked one is marked and its single `ref` edge followed.  Each recursive
step clears one entry from `countUnmarked`, which bounds the recursion. -/
def markObject (h : Heap) (r : Option Nat) : Option Heap :=
  match r with
  | none => none
  | some oid =>
    match hl : lookupObj h oid with
    | none => none
    | some o =>
      if hm : o.marked = true then some h
      else markObject (updateObj h oid { o with marked := true }) o.ref
termination_by countUnmarked h
decreasing_by
  simp only [countUnmarked]
  have hm2 : o.marked = false := by simpa using hm
  clear hm
  induction h with
  | nil => simp [lookupObj] at hl
  | cons p rest ih =>
    obtain ⟨k, v⟩ := p
    by_cases hk : k = oid
    · subst hk
      simp [lookupObj] at hl
      subst hl
      simp [updateObj, List.countP_cons, hm2]
    · simp only [lookupObj, if_neg hk] at hl
      simp only [updateObj, if_neg hk, List.countP_cons]
      have := ih hl
      omega

/-- The mark phase of Go `Collect`: `for _, root := range gc.roots
{ gc.markObject(root) }`, threading the memory through each call. -/
def markRoots : Heap → List Nat → Option Heap
  | h, [] => some h
  | h, r :: rest =>
    match markObject h (some r) with
    | none => none
    | some h2 => markRoots h2 rest

/-- The sweep phase of Go `Collect`: unmarked objects are skipped, marked
objects have their mark cleared and are kept (in order) in the new
`objs` slice. -/
def sweep : Heap → List Nat → Heap × List Nat
  | h, [] => (h, [])
  | h, oid :: rest =>
    match lookupObj h oid with
    | none => sweep h rest
    | some o =>
      if o.marked = true then
        let res := sweep (updateObj h oid { o with marked := false }) rest
        (res.1, oid :: res.2)
      else sweep h rest

/-- Embeds Go `(gc *GC) Collect()`: mark every root (propagating the panic
of `markObject` on a nil reference), then sweep `gc.objs`. -/
def Collect (gc : GC) : Option GC :=
  match markRoots gc.heap gc.roots with
  | none => none
  | some h =>
    let res := sweep h gc.objs
    some { heap := res.1, objs := res.2, roots := gc.roots }

/-- First id in the given list whose object has the given path; the shared
loop of Go `getObjByPath` and `getRootByPath`. -/
def findByPath (h : Heap) : List Nat → String → Option Nat
  | [], _ => none
  | oid :: rest, path =>
    match lookupObj h oid with
    | some o => if o.path = path then some oid else findByPath h rest path
    | none => findByPath h rest path

/-- Embeds Go `(gc *GC) getObjByPath(path string)`: linear scan of
`gc.objs`, returning the first pointer whose `path` matches. -/
def getObjByPath (gc : GC) (path : String) : Option Nat :=
  findByPath gc.heap gc.objs path

/-- Embeds Go `(gc *GC) getRootByPath(path string)`: linear scan of
`gc.roots`, returning the first pointer whose `path` matches. -/
def getRootByPath (gc : GC) (path : String) : Option Nat :=
  findByPath gc.heap gc.roots path

/-- Modelled from the spec: the operation `bind_pending_root(path)` is
described in the specification but no implementation of it is among the
provided source files.  Per the spec it "finds the single root currently
holding no path ... and assigns it `path`"; holding no path is the Go zero
value `""`, and finding follows the registry's first-match scan order. -/
def bindPendingRoot (gc : GC) (path : String) : GC :=
  match findByPath gc.heap gc.roots "" with
  | none => gc
  | some oid =>
    match lookupObj gc.heap oid with
    | some o => { gc with heap := updateObj gc.heap oid { o with path := path } }
    | none => gc

/-!
Embedding of the escape-analysis half of the file.  `EscapeAnalysis` walks
a function body with `ast.Inspect`, which fires a callback on every node
in pre-order and then descends into the node's children in `go/ast.Walk`
order.  The syntax-tree embedding below covers exactly the node kinds the
callback's `switch` distinguishes plus the kinds needed to write the
claims' bodies; every other Go node kind hits the switch's default (no
action) just like `basicLit` does here.
-/

mutual
/-- Go expression nodes: `Ident`, `StarExpr`, `UnaryExpr` (the `Bool`
records whether `Op == token.AND`), `CallExpr`, `FuncLit`, and `BasicLit`
standing for any leaf node the switch ignores. -/
inductive GoExpr : Type where
  | ident : String → GoExpr
  | starExpr : GoExpr → GoExpr
  | unaryExpr : Bool → GoExpr → GoExpr
  | callExpr : GoExpr → List GoExpr → GoExpr
  | funcLit : List GoField → List GoField → List GoStmt → GoExpr
  | basicLit : GoExpr

/-- An `ast.Field` of a parameter or result list: its `Names` (each an
`*ast.Ident`, possibly empty for an unnamed parameter) and its `Type`. -/
inductive GoField : Type where
  | mk : List String → GoExpr → GoField

/-- Go statement nodes: `ExprStmt`, `GoStmt` (`go fn(args...)`),
`AssignStmt` (`Lhs`, `Rhs`; the token `=`/`:=` is never read by the
analysis), `ReturnStmt`, a `var` declaration
(`DeclStmt`/`GenDecl`/`ValueSpec`: names, type expressions, values — Go
walks the names, then the type when present, then the values; a `nil`
type is the empty list), and `BlockStmt`. -/
inductive GoStmt : Type where
  | exprStmt : GoExpr → GoStmt
  | goStmt : GoExpr → List GoExpr → GoStmt
  | assignStmt : List GoExpr → List GoExpr → GoStmt
  | returnStmt : List GoExpr → GoStmt
  | declStmt : List String → List GoExpr → List GoExpr → GoStmt
  | blockStmt : List GoStmt → GoStmt
end

/-- The two accumulators of Go `EscapeAnalysis`:
`var heapVars, vars []string`, mutated by appending. -/
structure EAState where
  heapVars : List String
  vars : List String
deriving Repr, DecidableEq

/-- Embeds Go `checkEscaped(ident string, escapedList []string) bool`:
linear scan with `==`. -/
def checkEscaped (id0 : String) (escapedList : List String) : Bool :=
  match escapedList with
  | [] => false
  | s :: rest => if s = id0 then true else checkEscaped id0 rest

/-- Embeds Go `getVarName(expr ast.Expr) string`: the name under any
chain of `StarExpr`/`UnaryExpr`, `""` for anything else. -/
def getVarName : GoExpr → String
  | .ident n => n
  | .starExpr x => getVarName x
  | .unaryExpr _ x => getVarName x
  | _ => ""

/-- Embeds Go `isReference(expr ast.Expr) bool`: a `StarExpr`, or a
`UnaryExpr` whose operator is `token.AND`. -/
def isReference : GoExpr → Bool
  | .starExpr _ => true
  | .unaryExpr isAnd _ => isAnd
  | _ => false

/-- The `*ast.Ident` case of the inner `ast.Inspect` launched at a
`FuncLit`: if the identifier is already in `heapVars` or in `vars`, it is
appended to `heapVars`. -/
def identEsc (s : EAState) (n : String) : EAState :=
  if checkEscaped n s.heapVars || checkEscaped n s.vars
  then { s with heapVars := s.heapVars ++ [n] } else s

mutual
/-- The inner `ast.Inspect(x.Body, ...)` run at a `FuncLit`: its callback
acts only on `*ast.Ident` nodes (via `identEsc`) and descends everywhere,
so every other node kind just walks its children. -/
def innerExpr : EAState → GoExpr → EAState
  | s, .ident n => identEsc s n
  | s, .starExpr x => innerExpr s x
  | s, .unaryExpr _ x => innerExpr s x
  | s, .callExpr fn args => innerExprList (innerExpr s fn) args
  | s, .funcLit params results body =>
    innerStmtList (innerFieldList (innerFieldList s params) results) body
  | s, .basicLit => s

def innerExprList : EAState → List GoExpr → EAState
  | s, [] => s
  | s, e :: rest => innerExprList (innerExpr s e) rest

def innerField : EAState → GoField → EAState
  | s, .mk ns t => innerExpr (ns.foldl identEsc s) t

def innerFieldList : EAState → List GoField → EAState
  | s, [] => s
  | s, f :: rest => innerFieldList (innerField s f) rest

def innerStmt : EAState → GoStmt → EAState
  | s, .exprStmt e => innerExpr s e
  | s, .goStmt fn args => innerExprList (innerExpr s fn) args
  | s, .assignStmt lhs rhs => innerExprList (innerExprList s lhs) rhs
  | s, .returnStmt results => innerExprList s results
  | s, .declStmt ns tps vals =>
    innerExprList (innerExprList (ns.foldl identEsc s) tps) vals
  | s, .blockStmt stmts => innerStmtList s stmts

def innerStmtList : EAState → List GoStmt → EAState
  | s, [] => s
  | s, st :: rest => innerStmtList (innerStmt s st) rest
end

/-- The `*ast.GoStmt` case: for each argument of the launched call, if
`getVarName(arg)` is in `heapVars` or `vars`, append it to `heapVars`
(each iteration sees the `heapVars` updated by the previous one). -/
def goArgsAction : EAState → List GoExpr → EAState
  | s, [] => s
  | s, a :: rest =>
    let n := getVarName a
    if checkEscaped n s.heapVars || checkEscaped n s.vars
    then goArgsAction { s with heapVars := s.heapVars ++ [n] } rest
    else goArgsAction s rest

/-- The parameter/result loops of the `*ast.FuncLit` case: for each field
with a reference type, append `v.Names[0].Name` to `heapVars`; when such a
field has no names (an unnamed pointer parameter or result), `v.Names[0]`
indexes out of range and Go panics — the `none` result. -/
def fieldsAction : EAState → List GoField → Option EAState
  | s, [] => some s
  | s, .mk ns t :: rest =>
    if isReference t then
      match ns with
      | [] => none
      | n :: _ => fieldsAction { s with heapVars := s.heapVars ++ [n] } rest
    else fieldsAction s rest

/-- The `*ast.AssignStmt` case: iterate over `Rhs` with index `i`,
reading `x.Lhs[i]` — out of range (Go panic, `none`) when `Rhs` is longer
than `Lhs`.  A reference `Rhs` entry escapes the named `Lhs` (unless blank
or empty) and its own named operand; otherwise an already-escaped `Rhs`
name propagates to the `Lhs` name. -/
def assignAction : EAState → List GoExpr → List GoExpr → Option EAState
  | s, _, [] => some s
  | _, [], _ :: _ => none
  | s, l :: ls, r :: rs =>
    let ln := getVarName l
    let rn := getVarName r
    if isReference r then
      let s0 := if ln != "" && ln != "_"
                then { s with heapVars := s.heapVars ++ [ln] } else s
      assignAction { s0 with heapVars := s0.heapVars ++ [rn] } ls rs
    else if checkEscaped rn s.heapVars && ln != "" && ln != "_" then
      assignAction { s with heapVars := s.heapVars ++ [ln] } ls rs
    else assignAction s ls rs

/-- The `*ast.ReturnStmt` case: every reference result's name is appended
to `heapVars`. -/
def returnAction : EAState → List GoExpr → EAState
  | s, [] => s
  | s, r :: rest =>
    if isReference r
    then returnAction { s with heapVars := s.heapVars ++ [getVarName r] } rest
    else returnAction s rest

mutual
/-- The outer `ast.Inspect` of `EscapeAnalysis`: the callback's switch
action at the node, then the children in `go/ast.Walk` order.  An
`*ast.Ident` appends its name to `vars`; a `FuncLit` first runs the inner
inspect over its body and the parameter/result loops (the callback
action), and is then still descended into by the outer walk — its field
names are visited as `Ident`s and its body is walked a second time with
the full callback (the `todo skip walking the body` in the source is not
done). -/
def inspectExpr : EAState → GoExpr → Option EAState
  | s, .ident n => some { s with vars := s.vars ++ [n] }
  | s, .starExpr x => inspectExpr s x
  | s, .unaryExpr _ x => inspectExpr s x
  | s, .callExpr fn args =>
    match inspectExpr s fn with
    | none => none
    | some s1 => inspectExprList s1 args
  | s, .funcLit params results body =>
    let s1 := innerStmtList s body
    match fieldsAction s1 params with
    | none => none
    | some s2 =>
      match fieldsAction s2 results with
      | none => none
      | some s3 =>
        match inspectFieldList s3 params with
        | none => none
        | some s4 =>
          match inspectFieldList s4 results with
          | none => none
          | some s5 => inspectStmtList s5 body
  | s, .basicLit => some s

def inspectExprList : EAState → List GoExpr → Option EAState
  | s, [] => some s
  | s, e :: rest =>
    match inspectExpr s e with
    | none => none
    | some s1 => inspectExprList s1 rest

/-- Walking an `ast.Field`: its name `Ident`s (appended to `vars` by the
`Ident` case) and then its type expression. -/
def inspectField : EAState → GoField → Option EAState
  | s, .mk ns t => inspectExpr { s with vars := s.vars ++ ns } t

def inspectFieldList : EAState → List GoField → Option EAState
  | s, [] => some s
  | s, f :: rest =>
    match inspectField s f with
    | none => none
    | some s1 => inspectFieldList s1 rest

/-- Statement traversal: the switch action (`goArgsAction`,
`assignAction`, `returnAction`, nothing for the rest), then the node's
children in `go/ast.Walk` order. -/
def inspectStmt : EAState → GoStmt → Option EAState
  | s, .exprStmt e => inspectExpr s e
  | s, .goStmt fn args =>
    let s1 := goArgsAction s args
    match inspectExpr s1 fn with
    | none => none
    | some s2 => inspectExprList s2 args
  | s, .assignStmt lhs rhs =>
    match assignAction s lhs rhs with
    | none => none
    | some s1 =>
      match inspectExprList s1 lhs with
      | none => none
      | some s2 => inspectExprList s2 rhs
  | s, .returnStmt results =>
    inspectExprList (returnAction s results) results
  | s, .declStmt ns tps vals =>
    match inspectExprList { s with vars := s.vars ++ ns } tps with
    | none => none
    | some s1 => inspectExprList s1 vals
  | s, .blockStmt stmts => inspectStmtList s stmts

def inspectStmtList : EAState → List GoStmt → Option EAState
  | s, [] => some s
  | s, st :: rest =>
    match inspectStmt s st with
    | none => none
    | some s1 => inspectStmtList s1 rest
end

/-- Embeds Go `EscapeAnalysis(f *ast.FuncDecl) []string`: walk `f.Body`
(a list of statements) from empty accumulators and return `heapVars`;
`none` is a Go panic inside the traversal. -/
def EscapeAnalysis (body : List GoStmt) : Option (List String) :=
  match inspectStmtList ⟨[], []⟩ body with
  | none => none
  | some s => some s.heapVars

/-!
Concrete registries and function bodies exercised by the claim theorems.
All of them are reachable through the registry's API from freshly
constructed objects (`gcC5` is the state `Collect` leaves `gcC3` in).
-/

/-- One root (id 1, path `"p"`) and one distinct registered object
(id 2): the input on which `RemoveRoot` shows its objs/roots mix-up. -/
def gcC1 : GC :=
  { heap := [(1, { marked := false, ref := none, path := "p" }),
             (2, { marked := false, ref := none, path := "q" })],
    objs := [2], roots := [1] }

/-- A single root whose `reference` is empty (`nil`), also registered as
an object: the well-formed registry of claim C2. -/
def gcC2 : GC :=
  { heap := [(1, { marked := false, ref := none, path := "" })],
    objs := [1], roots := [1] }

/-- A root (id 1, not registered as an object) and a registered object
(id 2) referencing each other, so that the mark phase terminates without
touching an empty reference. -/
def gcC3 : GC :=
  { heap := [(1, { marked := false, ref := some 2, path := "" }),
             (2, { marked := false, ref := some 1, path := "" })],
    objs := [2], roots := [1] }

/-- A single self-referencing root, not registered as an object. -/
def gcC4 : GC :=
  { heap := [(1, { marked := false, ref := some 1, path := "r" })],
    objs := [], roots := [1] }

/-- The state `Collect` leaves `gcC3` in: the root keeps `marked = true`
because the sweep clears marks only on entries of `objs`. -/
def gcC5 : GC :=
  { heap := [(1, { marked := true, ref := some 2, path := "" }),
             (2, { marked := false, ref := some 1, path := "" })],
    objs := [2], roots := [1] }

/-- Two registered, unmarked objects and no roots at all. -/
def gcC6 : GC :=
  { heap := [(1, { marked := false, ref := none, path := "" }),
             (2, { marked := false, ref := none, path := "" })],
    objs := [1, 2], roots := [] }

/-- A registry with one root carrying path `"x"`; object 7 (path-less) is
the root added and then bound in the C9 witness. -/
def gcC9 : GC :=
  { heap := [(5, { marked := false, ref := none, path := "x" }),
             (7, { marked := false, ref := none, path := "" })],
    objs := [], roots := [5] }

/-- A single self-referencing root, used to run a full `Collect` in the
C10 witness. -/
def gcC10 : GC :=
  { heap := [(3, { marked := false, ref := some 3, path := "r" })],
    objs := [], roots := [3] }

/-- What `Collect` turns `gcC10` into. -/
def gcC10res : GC :=
  { heap := [(3, { marked := true, ref := some 3, path := "r" })],
    objs := [], roots := [3] }

/-- The function body `{ var a int; go g(&a) }`. -/
def bodyGoAddr : List GoStmt :=
  [.declStmt ["a"] [.ident "int"] [],
   .goStmt (.ident "g") [.unaryExpr true (.ident "a")]]

/-- The function body `{ go g(&a) }`, with `a` never otherwise visible in
the body (declared outside it). -/
def bodyGoAddrOnly : List GoStmt :=
  [.goStmt (.ident "g") [.unaryExpr true (.ident "a")]]

/-- The function body `{ _ = func(*int) {} }`: a function literal with an
unnamed pointer-typed parameter. -/
def bodyUnnamedParam : List GoStmt :=
  [.assignStmt [.ident "_"] [.funcLit [.mk [] (.starExpr (.ident "int"))] [] []]]

/-!
Helper lemmas about the collector.
-/

theorem sweep_objs_nil (h : Heap) (objs : List Nat)
    (hun : ∀ oid ∈ objs, ∀ o, lookupObj h oid = some o → o.marked = false) :
    (sweep h objs).2 = [] := by
  induction objs with
  | nil => rfl
  | cons oid rest ih =>
    have hrest : ∀ x ∈ rest, ∀ o, lookupObj h x = some o → o.marked = false :=
      fun x hx => hun x (List.mem_cons_of_mem _ hx)
    simp only [sweep]
    rcases hl : lookupObj h oid with _ | o
    · simp only [hl]
      exact ih hrest
    · simp only [hl]
      have hm : o.marked = false := hun oid (List.mem_cons_self _ _) o hl
      simp only [hm]
      simp
      exact ih hrest

theorem lookupObj_updateObj_self (h : Heap) (i : Nat) (o o2 : GCObj)
    (hl : lookupObj h i = some o) :
    lookupObj (updateObj h i o2) i = some o2 := by
  induction h with
  | nil => simp [lookupObj] at hl
  | cons p rest ih =>
    obtain ⟨k, v⟩ := p
    by_cases hk : k = i
    · subst hk
      simp [lookupObj, updateObj]
    · simp only [lookupObj, if_neg hk] at hl
      simp [updateObj, lookupObj, hk, ih hl]

theorem lookupObj_updateObj_ne (h : Heap) (i j : Nat) (o2 : GCObj)
    (hne : j ≠ i) :
    lookupObj (updateObj h i o2) j = lookupObj h j := by
  induction h with
  | nil => rfl
  | cons p rest ih =>
    obtain ⟨k, v⟩ := p
    by_cases hk : k = i
    · subst hk
      have hkj : ¬ k = j := fun hkj => hne hkj.symm
      simp [updateObj, lookupObj, hkj]
    · by_cases hkj : k = j
      · subst hkj
        simp [updateObj, lookupObj, hk]
      · simp [updateObj, lookupObj, hk, hkj, ih]

theorem findByPath_skip (h : Heap) (l rest : List Nat) (q : String)
    (hnone : ∀ r ∈ l, ∀ ro, lookupObj h r = some ro → ro.path ≠ q) :
    findByPath h (l ++ rest) q = findByPath h rest q := by
  induction l with
  | nil => rfl
  | cons r l2 ih =>
    have hl2 : ∀ x ∈ l2, ∀ ro, lookupObj h x = some ro → ro.path ≠ q :=
      fun x hx => hnone x (List.mem_cons_of_mem _ hx)
    simp only [List.cons_append, findByPath]
    rcases hl : lookupObj h r with _ | ro
    · simp only [hl]
      exact ih hl2
    · simp only [hl]
      have hq := hnone r (List.mem_cons_self _ _) ro hl
      simp [hq]
      exact ih hl2

/-!
Claims about the collector.
-/

/-- Claim C1 (code bug evidence): on `gcC1`, whose only root (id 1, path
`"p"`) differs from its only registered object (id 2), `RemoveRoot "p"`
leaves the roots collection untouched and instead deletes the registered
object — the claim says the matching root is removed and nothing else
changes. -/
theorem RemoveRoot_removes_from_objs_not_roots :
    gcC1.roots = [1] ∧ gcC1.objs = [2] ∧
    (RemoveRoot gcC1 "p").roots = [1] ∧ (RemoveRoot gcC1 "p").objs = [] := by
  refine ⟨rfl, rfl, ?_, ?_⟩ <;> decide

/-- Claim C2 (code bug evidence): `gcC2` is well-formed — its only
object's reference is empty — yet `Collect` does not run to completion:
`markObject` dereferences the nil reference (the `none` result). -/
theorem Collect_panics_on_empty_reference : Collect gcC2 = none := by
  simp [Collect, gcC2, markRoots, markObject, lookupObj, updateObj]

/-- Claim C3 (code bug evidence): on `gcC3`, with no mutation in between,
the first `Collect` retains object 2 but the second retains nothing,
because the sweep never clears the mark bit of the root (id 1, absent
from `objs`), so the second mark phase stops at the root immediately. -/
theorem Collect_twice_not_idempotent :
    (Collect gcC3).map GC.objs = some [2] ∧
    ((Collect gcC3).bind Collect).map GC.objs = some [] := by
  constructor <;>
    simp [Collect, gcC3, markRoots, markObject, sweep, lookupObj, updateObj]

/-- Claim C4 (code bug evidence): immediately after `Collect` returns on
`gcC4`, the root (id 1) still has `marked = true`: the sweep clears marks
only on members of `objs`, and the root is not one. -/
theorem root_marked_after_Collect :
    (Collect gcC4).map (fun g => (lookupObj g.heap 1).map GCObj.marked) =
      some (some true) := by
  simp [Collect, gcC4, markRoots, markObject, sweep, lookupObj, updateObj]

/-- Claim C5 (code bug evidence): in `gcC5` (the state one `Collect`
leaves `gcC3` in), registered object 2 lies on the reference chain of
root 1, yet one `Collect` removes it from the objects collection: the
root's stale mark stops the mark phase before the chain is traced. -/
theorem reachable_object_swept :
    (lookupObj gcC5.heap 1).map GCObj.ref = some (some 2) ∧
    gcC5.objs = [2] ∧ gcC5.roots = [1] ∧
    (Collect gcC5).map GC.objs = some [] := by
  refine ⟨rfl, rfl, rfl, ?_⟩
  simp [Collect, gcC5, markRoots, markObject, sweep, lookupObj, updateObj]

/-- Claim C6: on any registry with no roots whose registered objects are
(as `register` leaves them) unmarked, `Collect` completes and retains
nothing. -/
theorem Collect_no_roots_empty (gc : GC) (hr : gc.roots = [])
    (hun : ∀ oid ∈ gc.objs, ∀ o, lookupObj gc.heap oid = some o →
      o.marked = false) :
    ∃ gc2, Collect gc = some gc2 ∧ gc2.objs = [] := by
  refine ⟨{ heap := (sweep gc.heap gc.objs).1,
            objs := (sweep gc.heap gc.objs).2, roots := gc.roots }, ?_, ?_⟩
  · unfold Collect
    rw [hr]
    simp [markRoots, hr]
  · exact sweep_objs_nil gc.heap gc.objs hun

/-- Witness for C6 at `gcC6` (two registered objects, no roots). -/
theorem Collect_no_roots_empty_witness :
    ∃ gc2, Collect gcC6 = some gc2 ∧ gc2.objs = [] :=
  Collect_no_roots_empty gcC6 rfl (by
    intro oid hid o ho
    have hid2 : oid = 1 ∨ oid = 2 := by simpa [gcC6] using hid
    rcases hid2 with h | h <;> subst h <;>
      (injection ho with h3; rw [← h3]))

/-- Claim C9: after adding a path-less root and binding the pending root
to `p`, looking `p` up among the roots returns that same object —
provided, as the spec's usage contract demands, no other root is
path-less (nor already carries `p`). -/
theorem bindPendingRoot_binds (gc : GC) (oid : Nat) (o : GCObj) (p : String)
    (ho : lookupObj gc.heap oid = some o) (hpath : o.path = "")
    (hroots : ∀ r ∈ gc.roots, ∀ ro, lookupObj gc.heap r = some ro →
      ro.path ≠ "" ∧ ro.path ≠ p) :
    getRootByPath (bindPendingRoot (AddRoot gc oid) p) p = some oid := by
  have hfind : findByPath gc.heap (gc.roots ++ [oid]) "" = some oid := by
    rw [findByPath_skip gc.heap gc.roots [oid] ""
      (fun r hr ro hro => (hroots r hr ro hro).1)]
    simp [findByPath, ho, hpath]
  have hr2 : ∀ r ∈ gc.roots, ∀ ro,
      lookupObj (updateObj gc.heap oid { o with path := p }) r = some ro →
      ro.path ≠ p := by
    intro r hr ro hro
    have hne : r ≠ oid := by
      intro he
      subst he
      exact (hroots r hr o ho).1 hpath
    rw [lookupObj_updateObj_ne gc.heap oid r _ hne] at hro
    exact (hroots r hr ro hro).2
  simp only [AddRoot, bindPendingRoot, getRootByPath]
  simp only [hfind, ho]
  rw [findByPath_skip _ gc.roots [oid] p hr2]
  simp [findByPath, lookupObj_updateObj_self gc.heap oid o _ ho]

/-- Witness for C9 at `gcC9`: add path-less object 7 as a root, bind the
pending root to `"y"`, and look `"y"` up among the roots. -/
theorem bindPendingRoot_binds_witness :
    getRootByPath (bindPendingRoot (AddRoot gcC9 7) "y") "y" = some 7 :=
  bindPendingRoot_binds gcC9 7 { marked := false, ref := none, path := "" }
    "y" rfl rfl (by
      intro r hr ro hro
      have h5 : r = 5 := by simpa [gcC9] using hr
      subst h5
      injection hro with h3
      rw [← h3]
      exact ⟨by decide, by decide⟩)

/-- Claim C10: whenever `Collect` returns, the roots collection is exactly
what it was before the call — same entries, same order. -/
theorem Collect_preserves_roots (gc gc2 : GC) (h : Collect gc = some gc2) :
    gc2.roots = gc.roots := by
  unfold Collect at h
  rcases hm : markRoots gc.heap gc.roots with _ | h2
  · simp [hm] at h
  · simp only [hm] at h
    cases h
    rfl

/-- Witness for C10 at `gcC10`, a registry on which `Collect` does a full
mark and sweep. -/
theorem Collect_preserves_roots_witness : gcC10res.roots = gcC10.roots :=
  Collect_preserves_roots gcC10 gcC10res (by
    simp [Collect, gcC10, gcC10res, markRoots, markObject, sweep,
      lookupObj, updateObj])

/-!
Helper lemmas about the escape analysis: `heapVars` only ever grows (by
appends) along every branch of the traversal, and the traversal of an
appended statement list is the composition of the traversals.
-/

theorem checkEscaped_iff (n : String) (l : List String) :
    checkEscaped n l = true ↔ n ∈ l := by
  induction l with
  | nil => simp [checkEscaped]
  | cons s rest ih =>
    by_cases hs : s = n
    · subst hs; simp [checkEscaped]
    · simp [checkEscaped, hs, ih, Ne.symm hs]

theorem identEsc_mono (s : EAState) (n : String) :
    s.heapVars ⊆ (identEsc s n).heapVars := by
  unfold identEsc
  by_cases h : (checkEscaped n s.heapVars || checkEscaped n s.vars) = true
  · simp [h]
  · simp [h]

theorem identEsc_vars (s : EAState) (n : String) :
    (identEsc s n).vars = s.vars := by
  unfold identEsc
  by_cases h : (checkEscaped n s.heapVars || checkEscaped n s.vars) = true
  · simp [h]
  · simp [h]

mutual
theorem innerExpr_mono (s : EAState) (e : GoExpr) :
    s.heapVars ⊆ (innerExpr s e).heapVars := by
  match e with
  | .ident n => exact identEsc_mono s n
  | .starExpr x => exact innerExpr_mono s x
  | .unaryExpr b x => exact innerExpr_mono s x
  | .callExpr fn args =>
    exact (innerExpr_mono s fn).trans (innerExprList_mono _ args)
  | .funcLit params results body =>
    exact ((innerFieldList_mono s params).trans
      (innerFieldList_mono _ results)).trans (innerStmtList_mono _ body)
  | .basicLit => exact fun a ha => ha

theorem innerExprList_mono (s : EAState) (l : List GoExpr) :
    s.heapVars ⊆ (innerExprList s l).heapVars := by
  match l with
  | [] => exact fun a ha => ha
  | e :: rest => exact (innerExpr_mono s e).trans (innerExprList_mono _ rest)

theorem innerField_mono (s : EAState) (f : GoField) :
    s.heapVars ⊆ (innerField s f).heapVars := by
  match f with
  | .mk ns t =>
    have h1 : s.heapVars ⊆ (ns.foldl identEsc s).heapVars := by
      clear innerField_mono
      induction ns generalizing s with
      | nil => exact fun a ha => ha
      | cons n rest ih => exact (identEsc_mono s n).trans (ih _)
    exact h1.trans (innerExpr_mono _ t)

theorem innerFieldList_mono (s : EAState) (l : List GoField) :
    s.heapVars ⊆ (innerFieldList s l).heapVars := by
  match l with
  | [] => exact fun a ha => ha
  | f :: rest => exact (innerField_mono s f).trans (innerFieldList_mono _ rest)

theorem innerStmt_mono (s : EAState) (st : GoStmt) :
    s.heapVars ⊆ (innerStmt s st).heapVars := by
  match st with
  | .exprStmt e => exact innerExpr_mono s e
  | .goStmt fn args => exact (innerExpr_mono s fn).trans (innerExprList_mono _ args)
  | .assignStmt lhs rhs =>
    exact (innerExprList_mono s lhs).trans (innerExprList_mono _ rhs)
  | .returnStmt results => exact innerExprList_mono s results
  | .declStmt ns tps vals =>
    have h1 : s.heapVars ⊆ (ns.foldl identEsc s).heapVars := by
      clear innerStmt_mono
      induction ns generalizing s with
      | nil => exact fun a ha => ha
      | cons n rest ih => exact (identEsc_mono s n).trans (ih _)
    exact (h1.trans (innerExprList_mono _ tps)).trans (innerExprList_mono _ vals)
  | .blockStmt stmts => exact innerStmtList_mono s stmts

theorem innerStmtList_mono (s : EAState) (l : List GoStmt) :
    s.heapVars ⊆ (innerStmtList s l).heapVars := by
  match l with
  | [] => exact fun a ha => ha
  | st :: rest => exact (innerStmt_mono s st).trans (innerStmtList_mono _ rest)
end

theorem foldl_identEsc_mono (ns : List String) (s : EAState) :
    s.heapVars ⊆ (ns.foldl identEsc s).heapVars := by
  induction ns generalizing s with
  | nil => exact fun a ha => ha
  | cons n rest ih => exact (identEsc_mono s n).trans (ih _)

theorem goArgsAction_mono (args : List GoExpr) (s : EAState) :
    s.heapVars ⊆ (goArgsAction s args).heapVars := by
  induction args generalizing s with
  | nil => exact fun a ha => ha
  | cons a rest ih =>
    unfold goArgsAction
    by_cases h : (checkEscaped (getVarName a) s.heapVars
        || checkEscaped (getVarName a) s.vars) = true
    · simp only [h, if_true]
      intro x hx
      exact ih _ (List.mem_append_left _ hx)
    · simp only [h, if_false]
      exact ih s

theorem goArgsAction_vars (args : List GoExpr) (s : EAState) :
    (goArgsAction s args).vars = s.vars := by
  induction args generalizing s with
  | nil => rfl
  | cons a rest ih =>
    unfold goArgsAction
    by_cases h : (checkEscaped (getVarName a) s.heapVars
        || checkEscaped (getVarName a) s.vars) = true
    · simp only [h, if_true]; exact ih _
    · simp only [h, if_false]; exact ih s

theorem goArgsAction_mem (args : List GoExpr) (s : EAState) (arg : GoExpr)
    (harg : arg ∈ args)
    (hseen : getVarName arg ∈ s.heapVars ∨ getVarName arg ∈ s.vars) :
    getVarName arg ∈ (goArgsAction s args).heapVars := by
  induction args generalizing s with
  | nil => cases harg
  | cons a rest ih =>
    unfold goArgsAction
    rcases List.mem_cons.mp harg with heq | hmem
    · subst heq
      have hcond : (checkEscaped (getVarName arg) s.heapVars
          || checkEscaped (getVarName arg) s.vars) = true := by
        rcases hseen with h | h
        · simp [checkEscaped_iff, h]
        · simp [checkEscaped_iff, h]
      simp only [hcond, if_true]
      exact goArgsAction_mono rest _ (by simp)
    · by_cases h : (checkEscaped (getVarName a) s.heapVars
          || checkEscaped (getVarName a) s.vars) = true
      · simp only [h, if_true]
        refine ih _ hmem ?_
        rcases hseen with hs | hs
        · exact Or.inl (List.mem_append_left _ hs)
        · exact Or.inr hs
      · simp only [h, if_false]
        exact ih s hmem hseen

theorem fieldsAction_mono (l : List GoField) (s s2 : EAState)
    (h : fieldsAction s l = some s2) : s.heapVars ⊆ s2.heapVars := by
  induction l generalizing s with
  | nil => simp [fieldsAction] at h; subst h; exact fun a ha => ha
  | cons f rest ih =>
    obtain ⟨ns, t⟩ := f
    unfold fieldsAction at h
    by_cases hr : isReference t = true
    · simp only [hr, if_true] at h
      match ns, h with
      | n :: ns2, h =>
        exact (List.subset_append_left _ _).trans (ih _ h)
    · simp only [hr, if_false] at h
      exact ih _ h

theorem assignAction_mono (lhs rhs : List GoExpr) (s s2 : EAState)
    (h : assignAction s lhs rhs = some s2) : s.heapVars ⊆ s2.heapVars := by
  induction rhs generalizing lhs s with
  | nil =>
    match lhs, h with
    | _, h => simp [assignAction] at h; subst h; exact fun a ha => ha
  | cons r rs ih =>
    match lhs with
    | [] => simp [assignAction] at h
    | l :: ls =>
      unfold assignAction at h
      by_cases hr : isReference r = true
      · simp only [hr, if_true] at h
        by_cases hl : (getVarName l != "" && getVarName l != "_") = true
        · simp only [hl, if_true] at h
          refine List.Subset.trans ?_ (ih ls _ h)
          exact (List.subset_append_left _ _).trans (List.subset_append_left _ _)
        · simp only [hl, if_false] at h
          exact (List.subset_append_left _ _).trans (ih ls _ h)
      · simp only [hr, if_false] at h
        by_cases hc : (checkEscaped (getVarName r) s.heapVars
            && getVarName l != "" && getVarName l != "_") = true
        · simp only [hc, if_true] at h
          exact (List.subset_append_left _ _).trans (ih ls _ h)
        · simp only [hc, if_false] at h
          exact ih ls _ h

theorem returnAction_mono (l : List GoExpr) (s : EAState) :
    s.heapVars ⊆ (returnAction s l).heapVars := by
  induction l generalizing s with
  | nil => exact fun a ha => ha
  | cons r rest ih =>
    unfold returnAction
    by_cases hr : isReference r = true
    · simp only [hr, if_true]
      intro x hx
      exact ih _ (List.mem_append_left _ hx)
    · simp only [hr, if_false]
      exact ih s

mutual
theorem inspectExpr_hv (s : EAState) (e : GoExpr) (s2 : EAState)
    (h : inspectExpr s e = some s2) : s.heapVars ⊆ s2.heapVars := by
  match e with
  | .ident n =>
    simp only [inspectExpr, Option.some.injEq] at h
    subst h; exact fun a ha => ha
  | .starExpr x => exact inspectExpr_hv s x s2 h
  | .unaryExpr b x => exact inspectExpr_hv s x s2 h
  | .callExpr fn args =>
    simp only [inspectExpr] at h
    rcases hfn : inspectExpr s fn with _ | s1
    · simp [hfn] at h
    · simp only [hfn] at h
      exact (inspectExpr_hv s fn s1 hfn).trans (inspectExprList_hv s1 args s2 h)
  | .funcLit params results body =>
    simp only [inspectExpr] at h
    rcases hp : fieldsAction (innerStmtList s body) params with _ | sp
    · simp [hp] at h
    · simp only [hp] at h
      rcases hr : fieldsAction sp results with _ | sr
      · simp [hr] at h
      · simp only [hr] at h
        rcases hfp : inspectFieldList sr params with _ | sfp
        · simp [hfp] at h
        · simp only [hfp] at h
          rcases hfr : inspectFieldList sfp results with _ | sfr
          · simp [hfr] at h
          · simp only [hfr] at h
            exact ((((innerStmtList_mono s body).trans
              (fieldsAction_mono params _ sp hp)).trans
              (fieldsAction_mono results sp sr hr)).trans
              ((inspectFieldList_hv sr params sfp hfp).trans
              (inspectFieldList_hv sfp results sfr hfr))).trans
              (inspectStmtList_hv sfr body s2 h)
  | .basicLit =>
    simp only [inspectExpr, Option.some.injEq] at h
    subst h; exact fun a ha => ha

theorem inspectExprList_hv (s : EAState) (l : List GoExpr) (s2 : EAState)
    (h : inspectExprList s l = some s2) : s.heapVars ⊆ s2.heapVars := by
  match l with
  | [] =>
    simp only [inspectExprList, Option.some.injEq] at h
    subst h; exact fun a ha => ha
  | e :: rest =>
    simp only [inspectExprList] at h
    rcases he : inspectExpr s e with _ | s1
    · simp [he] at h
    · simp only [he] at h
      exact (inspectExpr_hv s e s1 he).trans (inspectExprList_hv s1 rest s2 h)

theorem inspectField_hv (s : EAState) (f : GoField) (s2 : EAState)
    (h : inspectField s f = some s2) : s.heapVars ⊆ s2.heapVars := by
  match f with
  | .mk ns t =>
    simp only [inspectField] at h
    exact inspectExpr_hv { s with vars := s.vars ++ ns } t s2 h

theorem inspectFieldList_hv (s : EAState) (l : List GoField) (s2 : EAState)
    (h : inspectFieldList s l = some s2) : s.heapVars ⊆ s2.heapVars := by
  match l with
  | [] =>
    simp only [inspectFieldList, Option.some.injEq] at h
    subst h; exact fun a ha => ha
  | f :: rest =>
    simp only [inspectFieldList] at h
    rcases hf : inspectField s f with _ | s1
    · simp [hf] at h
    · simp only [hf] at h
      exact (inspectField_hv s f s1 hf).trans (inspectFieldList_hv s1 rest s2 h)

theorem inspectStmt_hv (s : EAState) (st : GoStmt) (s2 : EAState)
    (h : inspectStmt s st = some s2) : s.heapVars ⊆ s2.heapVars := by
  match st with
  | .exprStmt e => exact inspectExpr_hv s e s2 h
  | .goStmt fn args =>
    simp only [inspectStmt] at h
    rcases hfn : inspectExpr (goArgsAction s args) fn with _ | s1
    · simp [hfn] at h
    · simp only [hfn] at h
      exact ((goArgsAction_mono args s).trans
        (inspectExpr_hv _ fn s1 hfn)).trans (inspectExprList_hv s1 args s2 h)
  | .assignStmt lhs rhs =>
    simp only [inspectStmt] at h
    rcases ha : assignAction s lhs rhs with _ | s1
    · simp [ha] at h
    · simp only [ha] at h
      rcases hl : inspectExprList s1 lhs with _ | sl
      · simp [hl] at h
      · simp only [hl] at h
        exact ((assignAction_mono lhs rhs s s1 ha).trans
          (inspectExprList_hv s1 lhs sl hl)).trans (inspectExprList_hv sl rhs s2 h)
  | .returnStmt results =>
    simp only [inspectStmt] at h
    exact (returnAction_mono results s).trans (inspectExprList_hv _ results s2 h)
  | .declStmt ns tps vals =>
    simp only [inspectStmt] at h
    rcases ht : inspectExprList { s with vars := s.vars ++ ns } tps with _ | s1
    · simp [ht] at h
    · simp only [ht] at h
      exact (inspectExprList_hv _ tps s1 ht).trans (inspectExprList_hv s1 vals s2 h)
  | .blockStmt stmts => exact inspectStmtList_hv s stmts s2 h

theorem inspectStmtList_hv (s : EAState) (l : List GoStmt) (s2 : EAState)
    (h : inspectStmtList s l = some s2) : s.heapVars ⊆ s2.heapVars := by
  match l with
  | [] =>
    simp only [inspectStmtList, Option.some.injEq] at h
    subst h; exact fun a ha => ha
  | st :: rest =>
    simp only [inspectStmtList] at h
    rcases hs : inspectStmt s st with _ | s1
    · simp [hs] at h
    · simp only [hs] at h
      exact (inspectStmt_hv s st s1 hs).trans (inspectStmtList_hv s1 rest s2 h)
end

theorem inspectStmtList_append (s : EAState) (l1 l2 : List GoStmt) :
    inspectStmtList s (l1 ++ l2) =
      match inspectStmtList s l1 with
      | none => none
      | some s1 => inspectStmtList s1 l2 := by
  induction l1 generalizing s with
  | nil => simp [inspectStmtList]
  | cons st rest ih =>
    simp only [List.cons_append, inspectStmtList]
    rcases hs : inspectStmt s st with _ | s1
    · rfl
    · exact ih s1

/-!
Claims about the escape analysis.
-/

/-- Claim C7 (code bug evidence): on the structurally valid body
`{ _ = func(*int) {} }` the analysis does not return a result: the
`FuncLit` parameter loop indexes `v.Names[0]` of the unnamed
pointer-typed parameter and Go panics with an index out of range. -/
theorem EscapeAnalysis_panics_on_unnamed_pointer_param :
    EscapeAnalysis bodyUnnamedParam = none := by decide

/-- Claim C8 counterexample: in the body `{ go g(&a) }` the address of
`a` is passed to a go-launched call, yet the analysis output is empty —
when the `GoStmt` node is visited (before its own children), `"a"` has
not been seen, so the claim's universally quantified membership fails at
this input. -/
theorem EscapeAnalysis_go_arg_can_be_missed :
    ¬ (∀ out, EscapeAnalysis bodyGoAddrOnly = some out → "a" ∈ out) := by
  intro hcl
  have h := hcl [] (by decide)
  simp at h

/-- Claim C8 as amended: a variable passed (through `&`/`*`) as an
argument of a go-launched call is in the analysis output provided its
name has already been recorded (in `heapVars` or `vars`) by the traversal
of the statements preceding the go statement — as happens for
`{ var a int; go g(&a) }`, where the declaration precedes the dispatch. -/
theorem escapeAnalysis_go_arg_escapes (pre rest : List GoStmt) (fn : GoExpr)
    (args : List GoExpr) (arg : GoExpr) (s : EAState) (out : List String)
    (hpre : inspectStmtList ⟨[], []⟩ pre = some s)
    (harg : arg ∈ args)
    (hseen : getVarName arg ∈ s.heapVars ∨ getVarName arg ∈ s.vars)
    (hout : EscapeAnalysis (pre ++ GoStmt.goStmt fn args :: rest) = some out) :
    getVarName arg ∈ out := by
  unfold EscapeAnalysis at hout
  rw [inspectStmtList_append, hpre] at hout
  rcases hs : inspectStmtList s (GoStmt.goStmt fn args :: rest) with _ | sF
  · simp [hs] at hout
  · simp only [hs] at hout
    simp only [Option.some.injEq] at hout
    subst hout
    simp only [inspectStmtList] at hs
    rcases h1 : inspectStmt s (GoStmt.goStmt fn args) with _ | s1
    · simp [h1] at hs
    · simp only [h1] at hs
      simp only [inspectStmt] at h1
      rcases h2 : inspectExpr (goArgsAction s args) fn with _ | sa
      · simp [h2] at h1
      · simp only [h2] at h1
        exact inspectStmtList_hv s1 rest sF hs
          (inspectExprList_hv sa args s1 h1
            (inspectExpr_hv _ fn sa h2
              (goArgsAction_mem args s arg harg hseen)))

/-- Witness for the amended C8 at the spec's own example
`{ var a int; go g(&a) }`: the declaration statement puts `"a"` into
`vars`, so the go-dispatch marks it escaping. -/
theorem escapeAnalysis_go_arg_escapes_witness :
    EscapeAnalysis bodyGoAddr = some ["a"] ∧ "a" ∈ ["a"] :=
  ⟨by decide,
   escapeAnalysis_go_arg_escapes [GoStmt.declStmt ["a"] [GoExpr.ident "int"] []]
     [] (GoExpr.ident "g") [GoExpr.unaryExpr true (GoExpr.ident "a")]
     (GoExpr.unaryExpr true (GoExpr.ident "a")) ⟨[], ["a", "int"]⟩ ["a"]
     (by decide) (List.mem_cons_self _ _) (by decide) (by decide)⟩

end Gnolang
